import Mathlib

/-!
Verification of the co-occurrence / PPMI / SVD-normalisation pipeline from the
embeddings notebook (`3-Embeddings_SVD_Viz.ipynb`).

The notebook's `cooccurrence_matrix(token_ids, V, K)` loops over offsets
`k = 1..K`; at each offset it takes the slices `token_ids[:-k]` and
`token_ids[k:]`, builds a sparse matrix with a unit entry at every index pair
(duplicates summed), and accumulates that matrix plus its transpose.  The
sparse constructor is the only place a bad token id can surface: it raises a
`ValueError` when an index in a slice falls outside the `V × V` shape.  We
embed the stream as `List ℕ`, the result as an entry function `ℕ → ℕ → ℕ`,
and the fallible call as `Except String`.

`PPMI(C)` computes the total mass `Z`, row and column marginals, evaluates
`max(0, log(c·Z/(Z_row·Z_col)))` at exactly the nonzero positions of `C`, and
drops entries that are exactly zero from the sparse result
(`eliminate_zeros`).  We embed counts as `ℕ` matrix entries and the scores
over `ℝ` with `Real.log`.

`SVD(X, d)` normalises each row of the factor matrix by its Euclidean norm
with an unconditional division `Wv / np.linalg.norm(Wv, axis=1)`; we embed
that normalisation step directly.
-/

namespace Embeddings

/-- List of position pairs formed by zipping the stream with itself shifted
by `k`: exactly the index data `(token_ids[:-k], token_ids[k:])` fed to the
sparse constructor at offset `k`. -/
def pairList (ids : List ℕ) (k : ℕ) : List (ℕ × ℕ) :=
  ids.zip (ids.drop k)

/-- Value of the directed offset-`k` matrix `Ck_plus` at `(i, j)`: the number
of occurrences of the pair `(i, j)` among the zipped slices (the sparse
constructor sums duplicate coordinates). -/
def countPairs (ids : List ℕ) (k i j : ℕ) : ℕ :=
  (pairList ids k).count (i, j)

/-- Entry `(i, j)` of the accumulated co-occurrence matrix: the loop adds
`Ck_plus + Ck_minus` (the transpose of `Ck_plus`) for each offset
`k = 1..K`. -/
def coocFun (ids : List ℕ) (K : ℕ) : ℕ → ℕ → ℕ := fun i j =>
  ∑ k ∈ Finset.range K, (countPairs ids (k + 1) i j + countPairs ids (k + 1) j i)

/-- Bounds check performed by the sparse constructor at offset `k`: every
index appearing in either slice must lie below `V`. -/
def sliceOK (ids : List ℕ) (V k : ℕ) : Bool :=
  (pairList ids k).all fun p => decide (p.1 < V) && decide (p.2 < V)

/-- Embedding of `cooccurrence_matrix(token_ids, V, K)`.  The only failure
path in the source is the sparse constructor's index bounds check; the
window parameter itself is never validated (a non-positive `K` makes the
loop body run zero times). -/
def cooccurrence_matrix (ids : List ℕ) (V K : ℕ) : Except String (ℕ → ℕ → ℕ) :=
  if ((List.range K).all fun k => sliceOK ids V (k + 1)) = true then
    .ok (coocFun ids K)
  else
    .error ("row or column index exceeds matrix dimensions")

/-- Boolean test that an `Except` value carries a result rather than an
error. -/
def exceptOk {ε α : Type} : Except ε α → Bool
  | .ok _ => true
  | .error _ => false

/-- Directed per-offset count as the specification phrases it: the number of
positions `l` (with both `l` and `l + k` in range) at which the stream holds
`i` at `l` and `j` at `l + k`. -/
def specPairCount (ids : List ℕ) (k i j : ℕ) : ℕ :=
  ((Finset.range (ids.length - k)).filter
    (fun l => ids.getD l 0 = i ∧ ids.getD (l + k) 0 = j)).card

/-- Occurrence count of a pair in a zip of two streams, re-expressed as the
number of index positions at which both components match. -/
lemma count_zip_eq (i j : ℕ) (xs : List ℕ) : ∀ ys : List ℕ,
    (xs.zip ys).count (i, j) =
      ((Finset.range (min xs.length ys.length)).filter
        (fun l => xs.getD l 0 = i ∧ ys.getD l 0 = j)).card := by
  induction xs with
  | nil => intro ys; simp
  | cons x xs ih =>
    intro ys
    cases ys with
    | nil => simp
    | cons y ys =>
      rw [List.zip_cons_cons, List.count_cons, ih ys,
        Finset.card_filter, Finset.card_filter]
      have hlen : min (x :: xs).length (y :: ys).length
          = min xs.length ys.length + 1 := by
        simp [Nat.succ_min_succ]
      rw [hlen, Finset.sum_range_succ']
      congr 1
      simp [List.getD_cons_zero, Prod.ext_iff]

/-- Per-offset slice count agrees with the spec's directed positional
count. -/
lemma countPairs_eq_spec (ids : List ℕ) (k i j : ℕ) :
    countPairs ids k i j = specPairCount ids k i j := by
  rw [countPairs, pairList, count_zip_eq, specPairCount]
  have h1 : min ids.length (ids.drop k).length = ids.length - k := by
    rw [List.length_drop]
    exact Nat.min_eq_right (Nat.sub_le _ _)
  rw [h1]
  congr 1
  apply Finset.filter_congr
  intro l _
  have h2 : (ids.drop k).getD l 0 = ids.getD (l + k) 0 := by
    rw [List.getD_eq_getElem?_getD, List.getD_eq_getElem?_getD,
      List.getElem?_drop, Nat.add_comm]
  rw [h2]

/-- When every id lies below `V`, every slice passes the bounds check and the
accumulated matrix is returned. -/
lemma cooc_ok (ids : List ℕ) (V K : ℕ) (h : ∀ x ∈ ids, x < V) :
    cooccurrence_matrix ids V K = .ok (coocFun ids K) := by
  rw [cooccurrence_matrix, if_pos]
  rw [List.all_eq_true]
  intro k _
  rw [sliceOK, List.all_eq_true]
  intro p hp
  obtain ⟨a, b⟩ := p
  obtain ⟨h1, h2⟩ := List.of_mem_zip hp
  simp [h a h1, h b (List.mem_of_mem_drop h2)]

/-- Decomposition of the pair list of a stream with at least two elements at
offset 1: the head pair followed by the pair list of the tail. -/
lemma pairList_cons_one (a b : ℕ) (t : List ℕ) :
    pairList (a :: b :: t) 1 = (a, b) :: pairList (b :: t) 1 := by
  simp [pairList]

/-- Every element of a stream of length at least 2 appears as a component of
some offset-1 pair. -/
lemma mem_pairList_one (x : ℕ) (tl : List ℕ) : ∀ a : ℕ, x ∈ a :: tl → 1 ≤ tl.length →
    ∃ p ∈ pairList (a :: tl) 1, p.1 = x ∨ p.2 = x := by
  induction tl with
  | nil => intro a _ h; simp at h
  | cons b t ih =>
    intro a hx _
    rcases List.mem_cons.mp hx with h | hx'
    · exact ⟨(a, b), by rw [pairList_cons_one]; exact List.mem_cons_self _ _, Or.inl h.symm⟩
    · cases t with
      | nil =>
        have hxb : x = b := by simpa using hx'
        exact ⟨(a, b), by rw [pairList_cons_one]; exact List.mem_cons_self _ _, Or.inr hxb.symm⟩
      | cons c t' =>
        obtain ⟨p, hp, hpx⟩ := ih b hx' (by simp)
        exact ⟨p, by rw [pairList_cons_one]; exact List.mem_cons_of_mem _ hp, hpx⟩

/-- C1: for a stream of ids lying in `[0, V)` and a window `K ≥ 1`, the call
succeeds and entry `(i, j)` of the returned matrix is, summed over offsets
`k = 1..K`, the number of positions `l` with `ids[l] = i` and
`ids[l + k] = j` plus the number of positions `l` with `ids[l] = j` and
`ids[l + k] = i`. -/
theorem cooccurrence_matrix_entry_spec (ids : List ℕ) (V K : ℕ)
    (h1 : ∀ x ∈ ids, x < V) (_h2 : 1 ≤ K) :
    cooccurrence_matrix ids V K = .ok (coocFun ids K) ∧
    ∀ i j, coocFun ids K i j =
      ∑ k ∈ Finset.Icc 1 K, (specPairCount ids k i j + specPairCount ids k j i) := by
  refine ⟨cooc_ok ids V K h1, fun i j => ?_⟩
  rw [← Nat.Ico_succ_right, Finset.sum_Ico_eq_sum_range]
  rw [coocFun]
  apply Finset.sum_congr rfl
  intro k _
  rw [countPairs_eq_spec, countPairs_eq_spec, Nat.add_comm 1 k]

/-- Witness for C1 at the concrete stream `[0, 1, 0]` with `V = 2`,
`K = 1`. -/
theorem cooccurrence_matrix_entry_spec_witness :
    (∀ x ∈ ([0, 1, 0] : List ℕ), x < 2) ∧ 1 ≤ 1 ∧
    (cooccurrence_matrix [0, 1, 0] 2 1 = .ok (coocFun [0, 1, 0] 1) ∧
      ∀ i j, coocFun [0, 1, 0] 1 i j =
        ∑ k ∈ Finset.Icc 1 1,
          (specPairCount [0, 1, 0] k i j + specPairCount [0, 1, 0] k j i)) :=
  ⟨by decide, by decide,
    cooccurrence_matrix_entry_spec [0, 1, 0] 2 1 (by decide) (by decide)⟩

/-- C2: for a stream of ids lying in `[0, V)` and a window `K ≥ 1`, the call
succeeds and the returned matrix is symmetric. -/
theorem cooccurrence_matrix_symmetric (ids : List ℕ) (V K : ℕ)
    (h1 : ∀ x ∈ ids, x < V) (_h2 : 1 ≤ K) :
    cooccurrence_matrix ids V K = .ok (coocFun ids K) ∧
    ∀ i j, coocFun ids K i j = coocFun ids K j i := by
  refine ⟨cooc_ok ids V K h1, fun i j => ?_⟩
  simp only [coocFun]
  apply Finset.sum_congr rfl
  intro k _
  omega

/-- Witness for C2 at the concrete stream `[0, 1, 1]` with `V = 2`,
`K = 2`. -/
theorem cooccurrence_matrix_symmetric_witness :
    (∀ x ∈ ([0, 1, 1] : List ℕ), x < 2) ∧ 1 ≤ 2 ∧
    (cooccurrence_matrix [0, 1, 1] 2 2 = .ok (coocFun [0, 1, 1] 2) ∧
      ∀ i j, coocFun [0, 1, 1] 2 i j = coocFun [0, 1, 1] 2 j i) :=
  ⟨by decide, by decide,
    cooccurrence_matrix_symmetric [0, 1, 1] 2 2 (by decide) (by decide)⟩

/-- C10: for a stream of ids lying in `[0, V)` and a window `K ≥ 1`, the
call succeeds and every diagonal entry of the returned matrix is even: a
self co-occurrence is accumulated once by `Ck_plus` and once by its
transpose. -/
theorem cooccurrence_matrix_diag_even (ids : List ℕ) (V K : ℕ)
    (h1 : ∀ x ∈ ids, x < V) (_h2 : 1 ≤ K) :
    cooccurrence_matrix ids V K = .ok (coocFun ids K) ∧
    ∀ i, Even (coocFun ids K i i) := by
  refine ⟨cooc_ok ids V K h1, fun i => ?_⟩
  refine ⟨∑ k ∈ Finset.range K, countPairs ids (k + 1) i i, ?_⟩
  simp only [coocFun]
  rw [Finset.sum_add_distrib]

/-- Witness for C10 at the concrete stream `[1, 1, 1]` with `V = 2`,
`K = 1`. -/
theorem cooccurrence_matrix_diag_even_witness :
    (∀ x ∈ ([1, 1, 1] : List ℕ), x < 2) ∧ 1 ≤ 1 ∧
    (cooccurrence_matrix [1, 1, 1] 2 1 = .ok (coocFun [1, 1, 1] 1) ∧
      ∀ i, Even (coocFun [1, 1, 1] 1 i i)) :=
  ⟨by decide, by decide,
    cooccurrence_matrix_diag_even [1, 1, 1] 2 1 (by decide) (by decide)⟩

/-- C7 counterexample: with the non-positive window `K = 0` the call does
not fail; it returns a matrix. -/
theorem cooccurrence_matrix_K0_returns :
    exceptOk (cooccurrence_matrix [0, 0] 1 0) = true := by
  decide

/-- C7 amended: for the non-positive window `K = 0` the loop over offsets
runs zero times, no validation occurs, and the call returns the all-zero
matrix instead of failing. -/
theorem cooccurrence_matrix_K0 (ids : List ℕ) (V : ℕ) :
    cooccurrence_matrix ids V 0 = .ok (fun _ _ => 0) := by
  have h : coocFun ids 0 = fun _ _ => 0 := by
    funext i j
    simp [coocFun]
  rw [cooccurrence_matrix, if_pos (by simp), h]

/-- C8 counterexample: the singleton stream `[5]` with `V = 1` holds an
out-of-range id, yet the call succeeds — no offset-1 slice of a length-1
stream is nonempty, so the bounds check never sees the bad id. -/
theorem cooccurrence_matrix_oob_singleton :
    exceptOk (cooccurrence_matrix [5] 1 1) = true := by
  decide

/-- C8 amended: for a window `K ≥ 1`, a stream of length at least 2 that
holds an id outside `[0, V)` makes the call fail with the index error, and
no matrix is returned; a stream of length at most 1 is never validated. -/
theorem cooccurrence_matrix_oob_fails (ids : List ℕ) (V K : ℕ)
    (hK : 1 ≤ K) (hlen : 2 ≤ ids.length) (hbad : ∃ x ∈ ids, V ≤ x) :
    cooccurrence_matrix ids V K
      = .error ("row or column index exceeds matrix dimensions") := by
  have hcond : ¬ (((List.range K).all fun k => sliceOK ids V (k + 1)) = true) := by
    intro hall
    rw [List.all_eq_true] at hall
    have h0 : sliceOK ids V 1 = true := hall 0 (List.mem_range.mpr hK)
    obtain ⟨x, hx, hVx⟩ := hbad
    cases ids with
    | nil => simp at hlen
    | cons a tl =>
      have htl : 1 ≤ tl.length := by
        simp only [List.length_cons] at hlen
        omega
      obtain ⟨p, hp, hpx⟩ := mem_pairList_one x tl a hx htl
      rw [sliceOK, List.all_eq_true] at h0
      have hpV := h0 p hp
      simp only [Bool.and_eq_true, decide_eq_true_eq] at hpV
      rcases hpx with h | h <;> omega
  rw [cooccurrence_matrix, if_neg hcond]

/-- Witness for the amended C8 at the concrete stream `[5, 0]` with `V = 1`,
`K = 1`. -/
theorem cooccurrence_matrix_oob_fails_witness :
    1 ≤ 1 ∧ 2 ≤ ([5, 0] : List ℕ).length ∧ (∃ x ∈ ([5, 0] : List ℕ), 1 ≤ x) ∧
    cooccurrence_matrix [5, 0] 1 1
      = .error ("row or column index exceeds matrix dimensions") :=
  ⟨by decide, by decide, by decide,
    cooccurrence_matrix_oob_fails [5, 0] 1 1 (by decide) (by decide) (by decide)⟩

/-- Total co-occurrence mass `Z = C.sum()`. -/
def Zmass {m n : ℕ} (C : Fin m → Fin n → ℕ) : ℕ := ∑ i, ∑ j, C i j

/-- Row marginal `Zr[i]`: the sum of row `i` (`C.sum(axis=1)`). -/
def Zrow {m n : ℕ} (C : Fin m → Fin n → ℕ) (i : Fin m) : ℕ := ∑ j, C i j

/-- Column marginal `Zc[j]`: the sum of column `j` (`C.sum(axis=0)`). -/
def Zcol {m n : ℕ} (C : Fin m → Fin n → ℕ) (j : Fin n) : ℕ := ∑ i, C i j

/-- PMI value the source computes at an examined position:
`log(Cij * Z / (Zr[ii] * Zc[jj]))`. -/
noncomputable def pmi {m n : ℕ} (C : Fin m → Fin n → ℕ) (i : Fin m) (j : Fin n) : ℝ :=
  Real.log ((C i j : ℝ) * (Zmass C : ℝ) / ((Zrow C i : ℝ) * (Zcol C j : ℝ)))

/-- Dense semantics of `PPMI(C)`: the source evaluates
`max(0, pmi)` at exactly the nonzero positions of `C` and leaves every other
position at the sparse matrix's implicit zero. -/
noncomputable def PPMI {m n : ℕ} (C : Fin m → Fin n → ℕ) :
    Fin m → Fin n → ℝ :=
  fun i j => if C i j = 0 then 0 else max 0 (pmi C i j)

/-- Positions the transform examines — the index set `C.nonzero()`. -/
def evalPositions {m n : ℕ} (C : Fin m → Fin n → ℕ) : Set (Fin m × Fin n) :=
  {p | C p.1 p.2 ≠ 0}

/-- Stored entries of the sparse result: the positions that were built from
`C.nonzero()` and survived `eliminate_zeros()`. -/
def ppmiStored {m n : ℕ} (C : Fin m → Fin n → ℕ) : Set (Fin m × Fin n) :=
  {p | C p.1 p.2 ≠ 0 ∧ PPMI C p.1 p.2 ≠ 0}

/-- Row marginal is positive wherever the row has a nonzero entry. -/
lemma Zrow_pos {m n : ℕ} (C : Fin m → Fin n → ℕ) (i : Fin m) (j : Fin n)
    (h : C i j ≠ 0) : 0 < Zrow C i :=
  lt_of_lt_of_le (Nat.pos_of_ne_zero h)
    (Finset.single_le_sum (fun k _ => Nat.zero_le (C i k)) (Finset.mem_univ j))

/-- Column marginal is positive wherever the column has a nonzero entry. -/
lemma Zcol_pos {m n : ℕ} (C : Fin m → Fin n → ℕ) (i : Fin m) (j : Fin n)
    (h : C i j ≠ 0) : 0 < Zcol C j :=
  lt_of_lt_of_le (Nat.pos_of_ne_zero h)
    (Finset.single_le_sum (fun k _ => Nat.zero_le (C k j)) (Finset.mem_univ i))

/-- Total mass dominates each row marginal. -/
lemma Zmass_pos {m n : ℕ} (C : Fin m → Fin n → ℕ) (i : Fin m) (j : Fin n)
    (h : C i j ≠ 0) : 0 < Zmass C :=
  lt_of_lt_of_le (Zrow_pos C i j h)
    (Finset.single_le_sum (fun k _ => Nat.zero_le (Zrow C k)) (Finset.mem_univ i))

/-- C3: every PPMI entry is non-negative; at a position nonzero in `C` the
entry is `max(0, log(c·Z/(Zr·Zc)))`; an entry survives in the sparse result
exactly when its value is nonzero — in particular a nonzero position at
which `c·Z = Zr·Zc` (independence) is absent — and every position zero in
`C` is zero in the result. -/
theorem PPMI_spec {m n : ℕ} (C : Fin m → Fin n → ℕ) (i : Fin m) (j : Fin n) :
    0 ≤ PPMI C i j ∧
    (C i j ≠ 0 →
      PPMI C i j
        = max 0 (Real.log
            ((C i j : ℝ) * (Zmass C : ℝ) / ((Zrow C i : ℝ) * (Zcol C j : ℝ))))) ∧
    ((i, j) ∈ ppmiStored C ↔ PPMI C i j ≠ 0) ∧
    (C i j ≠ 0 → C i j * Zmass C = Zrow C i * Zcol C j → (i, j) ∉ ppmiStored C) ∧
    (C i j = 0 → PPMI C i j = 0) := by
  refine ⟨?_, ?_, ?_, ?_, ?_⟩
  · rw [PPMI]
    split
    · exact le_refl 0
    · exact le_max_left 0 _
  · intro h
    rw [PPMI, if_neg h, pmi]
  · constructor
    · exact fun hmem => hmem.2
    · intro hne
      refine ⟨?_, hne⟩
      intro hC0
      exact hne (by rw [PPMI, if_pos hC0])
  · intro hC hEq hmem
    apply hmem.2
    rw [PPMI, if_neg hC]
    have hden : (0:ℝ) < (Zrow C i : ℝ) * (Zcol C j : ℝ) := by
      have hr := Zrow_pos C i j hC
      have hc := Zcol_pos C i j hC
      exact mul_pos (by exact_mod_cast hr) (by exact_mod_cast hc)
    have harg : (C i j : ℝ) * (Zmass C : ℝ) / ((Zrow C i : ℝ) * (Zcol C j : ℝ)) = 1 := by
      rw [div_eq_one_iff_eq (ne_of_gt hden)]
      exact_mod_cast hEq
    rw [pmi, harg, Real.log_one, max_self]
  · intro h
    rw [PPMI, if_pos h]

/-- Witness for C3 at the all-ones 2 × 2 counts matrix (every position is an
independence position there). -/
theorem PPMI_spec_witness :
    0 ≤ PPMI (fun _ _ => 1 : Fin 2 → Fin 2 → ℕ) 0 0 ∧
    ((fun _ _ => 1 : Fin 2 → Fin 2 → ℕ) 0 0 ≠ 0 →
      PPMI (fun _ _ => 1 : Fin 2 → Fin 2 → ℕ) 0 0
        = max 0 (Real.log
            (((fun _ _ => 1 : Fin 2 → Fin 2 → ℕ) 0 0 : ℝ)
              * (Zmass (fun _ _ => 1 : Fin 2 → Fin 2 → ℕ) : ℝ)
              / ((Zrow (fun _ _ => 1 : Fin 2 → Fin 2 → ℕ) 0 : ℝ)
                  * (Zcol (fun _ _ => 1 : Fin 2 → Fin 2 → ℕ) 0 : ℝ))))) ∧
    ((0, 0) ∈ ppmiStored (fun _ _ => 1 : Fin 2 → Fin 2 → ℕ)
      ↔ PPMI (fun _ _ => 1 : Fin 2 → Fin 2 → ℕ) 0 0 ≠ 0) ∧
    ((fun _ _ => 1 : Fin 2 → Fin 2 → ℕ) 0 0 ≠ 0 →
      (fun _ _ => 1 : Fin 2 → Fin 2 → ℕ) 0 0 * Zmass (fun _ _ => 1 : Fin 2 → Fin 2 → ℕ)
          = Zrow (fun _ _ => 1 : Fin 2 → Fin 2 → ℕ) 0
              * Zcol (fun _ _ => 1 : Fin 2 → Fin 2 → ℕ) 0 →
        (0, 0) ∉ ppmiStored (fun _ _ => 1 : Fin 2 → Fin 2 → ℕ)) ∧
    ((fun _ _ => 1 : Fin 2 → Fin 2 → ℕ) 0 0 = 0 →
      PPMI (fun _ _ => 1 : Fin 2 → Fin 2 → ℕ) 0 0 = 0) :=
  PPMI_spec (fun _ _ => 1) 0 0

/-- C4: at every position nonzero in `C` both marginals are strictly
positive and the argument handed to the logarithm is strictly positive, so
the `-inf` / NaN branch is unreachable. -/
theorem PPMI_marginals_pos {m n : ℕ} (C : Fin m → Fin n → ℕ) (i : Fin m) (j : Fin n)
    (h : C i j ≠ 0) :
    0 < Zrow C i ∧ 0 < Zcol C j ∧
    0 < (C i j : ℝ) * (Zmass C : ℝ) / ((Zrow C i : ℝ) * (Zcol C j : ℝ)) := by
  have hr := Zrow_pos C i j h
  have hc := Zcol_pos C i j h
  have hz := Zmass_pos C i j h
  have h0 : 0 < C i j := Nat.pos_of_ne_zero h
  refine ⟨hr, hc, ?_⟩
  exact div_pos (mul_pos (by exact_mod_cast h0) (by exact_mod_cast hz))
    (mul_pos (by exact_mod_cast hr) (by exact_mod_cast hc))

/-- Witness for C4 at the all-ones 2 × 2 counts matrix. -/
theorem PPMI_marginals_pos_witness :
    (fun _ _ => 1 : Fin 2 → Fin 2 → ℕ) 0 0 ≠ 0 ∧
    (0 < Zrow (fun _ _ => 1 : Fin 2 → Fin 2 → ℕ) 0 ∧
      0 < Zcol (fun _ _ => 1 : Fin 2 → Fin 2 → ℕ) 0 ∧
      0 < ((fun _ _ => 1 : Fin 2 → Fin 2 → ℕ) 0 0 : ℝ)
          * (Zmass (fun _ _ => 1 : Fin 2 → Fin 2 → ℕ) : ℝ)
          / ((Zrow (fun _ _ => 1 : Fin 2 → Fin 2 → ℕ) 0 : ℝ)
              * (Zcol (fun _ _ => 1 : Fin 2 → Fin 2 → ℕ) 0 : ℝ))) :=
  ⟨by decide, PPMI_marginals_pos (fun _ _ => 1) 0 0 (by decide)⟩

/-- C9: when the total mass `Z` is zero every entry of the result is zero,
and no position is ever examined, so no division (by `Z` or by a marginal)
is evaluated. -/
theorem PPMI_zero_mass {m n : ℕ} (C : Fin m → Fin n → ℕ) (h : Zmass C = 0) :
    (∀ i j, PPMI C i j = 0) ∧ evalPositions C = ∅ := by
  have hall : ∀ i j, C i j = 0 := by
    intro i j
    rw [Zmass] at h
    have h1 := (Finset.sum_eq_zero_iff.mp h) i (Finset.mem_univ i)
    exact (Finset.sum_eq_zero_iff.mp h1) j (Finset.mem_univ j)
  constructor
  · intro i j
    rw [PPMI, if_pos (hall i j)]
  · rw [Set.eq_empty_iff_forall_not_mem]
    intro p hp
    exact hp (hall p.1 p.2)

/-- Witness for C9 at the all-zero 2 × 2 counts matrix. -/
theorem PPMI_zero_mass_witness :
    Zmass (fun _ _ => 0 : Fin 2 → Fin 2 → ℕ) = 0 ∧
    ((∀ i j, PPMI (fun _ _ => 0 : Fin 2 → Fin 2 → ℕ) i j = 0) ∧
      evalPositions (fun _ _ => 0 : Fin 2 → Fin 2 → ℕ) = ∅) :=
  ⟨by decide, PPMI_zero_mass (fun _ _ => 0) (by decide)⟩

/-- Euclidean norm of row `i` of the factor matrix, as computed by
`np.linalg.norm(Wv, axis=1)`. -/
noncomputable def rowNorm {m d : ℕ} (W : Fin m → Fin d → ℝ) (i : Fin m) : ℝ :=
  Real.sqrt (∑ j, W i j ^ 2)

/-- Row normalisation step of `SVD`: `Wv / norms.reshape([-1,1])` divides
every row by its norm unconditionally — no zero-norm guard appears in the
source. -/
noncomputable def normalizeRows {m d : ℕ} (W : Fin m → Fin d → ℝ) :
    Fin m → Fin d → ℝ :=
  fun i j => W i j / rowNorm W i

/-- Rows of nonzero norm are sent to unit-norm rows (the half of the C5
guarantee the source does satisfy). -/
lemma rowNorm_normalizeRows {m d : ℕ} (W : Fin m → Fin d → ℝ) (i : Fin m)
    (h : rowNorm W i ≠ 0) : rowNorm (normalizeRows W) i = 1 := by
  have hnn : 0 ≤ rowNorm W i := Real.sqrt_nonneg _
  have hsum : ∑ j, (W i j / rowNorm W i) ^ 2 = (∑ j, W i j ^ 2) / rowNorm W i ^ 2 := by
    rw [Finset.sum_div]
    exact Finset.sum_congr rfl fun j _ => div_pow _ _ _
  have h1 : rowNorm (normalizeRows W) i
      = Real.sqrt ((∑ j, W i j ^ 2) / rowNorm W i ^ 2) := by
    rw [show rowNorm (normalizeRows W) i
        = Real.sqrt (∑ j, (W i j / rowNorm W i) ^ 2) from rfl, hsum]
  rw [h1, Real.sqrt_div (Finset.sum_nonneg fun j _ => sq_nonneg _),
    Real.sqrt_sq hnn]
  exact div_self h

/-- Concrete factor matrix with a zero second row: row 0 is `(3, 4)`, row 1
is `(0, 0)`.  A vocabulary entry whose PPMI row is entirely zero yields such
a row in the factorisation output. -/
noncomputable def badW : Fin 2 → Fin 2 → ℝ :=
  fun i j => if i = 0 then (if j = 0 then 3 else 4) else 0

/-- C5: the source performs the row division unconditionally.  At the factor
matrix `badW`, the norm of row 1 is zero, yet each entry of that row is
still divided by it — there is no guard, so the IEEE evaluation of `0 / 0`
silently produces NaN instead of a zero row or an error. -/
theorem SVD_zero_row_unguarded :
    rowNorm badW 1 = 0 ∧
    ∀ j, normalizeRows badW 1 j = badW 1 j / rowNorm badW 1 := by
  constructor
  · have hz : ∀ j : Fin 2, badW 1 j ^ 2 = 0 := by
      intro j
      rw [badW]
      norm_num
    rw [rowNorm, Finset.sum_congr rfl fun j _ => hz j]
    simp
  · intro j
    rfl

end Embeddings
